import Mathlib

/-!
Verification of the Markdown image inliner
(`content/blog/relatividade/introducao.py`).

The program is a single linear text transformation:

* `convert_image_to_base64` reads a file and base64-encodes its bytes;
* `process_markdown` reads a Markdown document, scans it with the regex
  `!\[([^\]]*)\]\((images/[^)]+)\)` (via `re.findall`), and for each captured
  `(alt, path)` pair resolves `os.path.join(images_folder, path.replace('images/', ''))`;
  if that file exists, it replaces every occurrence of the exact matched
  substring by `![alt](data:image/png;base64,<payload>)` (via `str.replace`),
  otherwise prints `Imagem não encontrada: <path>` and goes on; finally it
  writes the resulting text.

The embedding below works on `List Char` for document text and paths, and on
`List (Fin 256)` for file bytes.  The filesystem of image files is an
abstract map from paths to optional byte contents; the diagnostics printed to
stdout are collected in a list.  Bounded recursions are written with an
explicit fuel equal to the length of the scanned list, which always suffices;
unfolding lemmas proved below recover the intended recursion equations.
-/

/-- A byte, as read from an image file. -/
abbrev Byte := Fin 256

/-- The filesystem seen by the program: maps a path to the byte content of the
file stored there, or `none` when no such file exists.  Models
`os.path.exists` plus `open(..., "rb").read()`. -/
def FS : Type := List Char → Option (List Byte)

/-- If `pat` is a leading segment of `s`, return the remainder of `s`,
otherwise `none`.  (Helper used to phrase both the regex literals and
`str.replace` scanning.) -/
def stripPre : List Char → List Char → Option (List Char)
  | [], s => some s
  | _ :: _, [] => none
  | p :: ps, c :: cs => if p = c then stripPre ps cs else none

/-- Fuel-driven worker for `replaceAll`.  With fuel at least the length of the
input it performs the left-to-right, non-overlapping replacement of every
occurrence of `pat` by `repl`, exactly like Python's `str.replace` for a
non-empty pattern (the program only ever replaces non-empty patterns). -/
def replaceAllGo (pat repl : List Char) : Nat → List Char → List Char
  | _, [] => []
  | 0, s => s
  | n + 1, c :: cs =>
    match stripPre pat (c :: cs) with
    | some rest => repl ++ replaceAllGo pat repl n rest
    | none => c :: replaceAllGo pat repl n cs

/-- The function `replaceAll pat repl s` models Python's `s.replace(pat, repl)` for a
non-empty `pat`: every non-overlapping occurrence of `pat` in `s`, scanned
left to right, is replaced by `repl`. -/
def replaceAll (pat repl s : List Char) : List Char :=
  replaceAllGo pat repl s.length s

/-- The literal `images/` from the regex and from `path.replace('images/', '')`. -/
def imgPre : List Char := ['i', 'm', 'a', 'g', 'e', 's', '/']

/-- One attempt of the regex `!\[([^\]]*)\]\((images/[^)]+)\)` at the start of
the text.  On success returns the captured alt text, the captured path
(including the `images/` head), and the text following the match.  The two
character classes are complements of the single delimiter that follows them,
so the greedy match is the run up to the first such delimiter and the regex
match at a fixed position is deterministic. -/
def matchAt : List Char → Option (List Char × List Char × List Char)
  | c1 :: c2 :: cs =>
    if c1 = '!' ∧ c2 = '[' then
      match cs.dropWhile (fun c => c != ']') with
      | d1 :: d2 :: cs2 =>
        if d1 = ']' ∧ d2 = '(' then
          match stripPre imgPre cs2 with
          | some cs3 =>
            match cs3.dropWhile (fun c => c != ')') with
            | e1 :: rest =>
              if e1 = ')' ∧ cs3.takeWhile (fun c => c != ')') ≠ [] then
                some (cs.takeWhile (fun c => c != ']'),
                      imgPre ++ cs3.takeWhile (fun c => c != ')'), rest)
              else none
            | [] => none
          | none => none
        else none
      | _ => none
    else none
  | _ => none

/-- Fuel-driven worker for `findMatches`: try the pattern at every position,
left to right; after a successful match continue after the matched text.
This is the scan performed by `re.findall`. -/
def findMatchesGo : Nat → List Char → List (List Char × List Char)
  | 0, _ => []
  | _, [] => []
  | n + 1, c :: cs =>
    match matchAt (c :: cs) with
    | some (alt, path, rest) => (alt, path) :: findMatchesGo n rest
    | none => findMatchesGo n cs

/-- All `(alt text, relative path)` capture pairs of the regex
`!\[([^\]]*)\]\((images/[^)]+)\)` over the document, in order of occurrence:
`matches = re.findall(pattern, content)` (source line 17). -/
def findMatches (s : List Char) : List (List Char × List Char) :=
  findMatchesGo s.length s

/-- POSIX `os.path.join` on two components, as used at source line 21:
an absolute second component discards the first; otherwise the components are
concatenated, inserting `/` unless the first is empty or already ends in `/`. -/
def pathJoin (a b : List Char) : List Char :=
  if b.head? = some '/' then b
  else if a = [] then b
  else if a.getLast? = some '/' then a ++ b
  else a ++ '/' :: b

/-- The resolved image file path of a captured relative path (source line 21):
`os.path.join(images_folder, image_path.replace('images/', ''))`.  Note that
Python's `str.replace` removes every occurrence of `images/`, not only the
leading one. -/
def resolveImagePath (imagesFolder path : List Char) : List Char :=
  pathJoin imagesFolder (replaceAll imgPre [] path)

/-- The base64 alphabet, in value order. -/
def base64Alphabet : List Char :=
  ("ABCDEFGHIJKLMNOPQRSTUVWXYZabcdefghijklmnopqrstuvwxyz0123456789+/").toList

/-- The base64 digit of a 6-bit value. -/
def b64Char (n : Nat) : Char := base64Alphabet.getD n 'A'

/-- Standard base64 of a byte string, with `=` padding, exactly as produced by
Python's `base64.b64encode`: groups of three bytes become four digits; a final
group of one or two bytes is padded with `==` or `=`. -/
def b64encode : List Byte → List Char
  | [] => []
  | [a] => [b64Char (a.val / 4), b64Char (a.val % 4 * 16), '=', '=']
  | [a, b] => [b64Char (a.val / 4), b64Char (a.val % 4 * 16 + b.val / 16),
               b64Char (b.val % 16 * 4), '=']
  | a :: b :: c :: rest =>
    b64Char (a.val / 4) :: b64Char (a.val % 4 * 16 + b.val / 16) ::
    b64Char (b.val % 16 * 4 + c.val / 64) :: b64Char (c.val % 64) :: b64encode rest

/-- Position of a character in the base64 alphabet (64 when absent). -/
def b64Index (c : Char) : Nat := base64Alphabet.indexOf c

/-- Truncation of a natural number to a byte. -/
def byteOf (n : Nat) : Byte := ⟨n % 256, Nat.mod_lt n (by norm_num)⟩

/-- Standard base64 decoding, the inverse direction of the round-trip law:
four digits yield three bytes, and a final `=`-padded group yields one or two. -/
def b64decode : List Char → Option (List Byte)
  | [] => some []
  | c1 :: c2 :: c3 :: c4 :: rest =>
    if c3 = '=' ∧ c4 = '=' ∧ rest = [] then
      some [byteOf (b64Index c1 * 4 + b64Index c2 / 16)]
    else if c4 = '=' ∧ rest = [] then
      some [byteOf (b64Index c1 * 4 + b64Index c2 / 16),
            byteOf (b64Index c2 % 16 * 16 + b64Index c3 / 4)]
    else
      (b64decode rest).map (fun bs =>
        byteOf (b64Index c1 * 4 + b64Index c2 / 16) ::
        byteOf (b64Index c2 % 16 * 16 + b64Index c3 / 4) ::
        byteOf (b64Index c3 % 4 * 64 + b64Index c4) :: bs)
  | _ => none

/-- The operation `convert_image_to_base64` (source lines 5-8): read the file's bytes and
base64-encode them; fails (here: `none`) when the file does not exist. -/
def convert_image_to_base64 (fs : FS) (imagePath : List Char) : Option (List Char) :=
  (fs imagePath).map b64encode

/-- The Markdown image syntax `![alt](path)` with the given alt text and path;
for a capture pair this is exactly the matched substring, and with a data URI
as `path` it is the replacement text of source line 27. -/
def mkRef (alt path : List Char) : List Char :=
  '!' :: '[' :: (alt ++ ']' :: '(' :: (path ++ [')']))

/-- The fixed media-type-and-encoding head of every produced data URI
(source line 26). -/
def dataUriHead : List Char := ("data:image/png;base64,").toList

/-- The data URI produced for a file with the given bytes:
`f"data:image/png;base64,{base64_str}"` (source line 26). -/
def dataUri (bytes : List Byte) : List Char := dataUriHead ++ b64encode bytes

/-- The diagnostic text head of source line 29: `Imagem não encontrada: `. -/
def notFoundMsg : List Char := ("Imagem não encontrada: ").toList

/-- One iteration of the `for alt_text, image_path in matches` loop
(source lines 19-29), acting on the pair of current document text and
diagnostics printed so far.  If the resolved file exists, every occurrence of
the matched substring is replaced by the data-URI reference; otherwise the
text is unchanged and a diagnostic naming the resolved path is emitted. -/
def processStep (fs : FS) (imagesFolder : List Char)
    (st : List Char × List (List Char)) (m : List Char × List Char) :
    List Char × List (List Char) :=
  match fs (resolveImagePath imagesFolder m.2) with
  | some bytes =>
    (replaceAll (mkRef m.1 m.2) (mkRef m.1 (dataUri bytes)) st.1, st.2)
  | none =>
    (st.1, st.2 ++ [notFoundMsg ++ resolveImagePath imagesFolder m.2])

/-- The operation `process_markdown` (source lines 10-32), as a transformation of the
document text: scan the text once for all image references, then run the
substitution loop over them in order of occurrence.  Returns the final text
(written to the output file) and the list of diagnostics printed to stdout. -/
def process_markdown (fs : FS) (content imagesFolder : List Char) :
    List Char × List (List Char) :=
  (findMatches content).foldl (processStep fs imagesFolder) (content, [])

/-- The content component of one loop iteration (the text evolution of
`processStep`, which never depends on the diagnostics). -/
def pStep (fs : FS) (imagesFolder : List Char) (c : List Char)
    (m : List Char × List Char) : List Char :=
  match fs (resolveImagePath imagesFolder m.2) with
  | some bytes => replaceAll (mkRef m.1 m.2) (mkRef m.1 (dataUri bytes)) c
  | none => c

/-- Modelled from the spec: "Resolve the effective image file path by
stripping the literal prefix `images/` from the captured relative path and
joining the remainder onto `images directory`" (§4.1 step 3a).  This is the
spec's wording of path resolution, for comparison with `resolveImagePath`;
the captured path always begins with `images/`, so exactly the seven leading
characters are removed. -/
def resolveImagePathSpec (imagesFolder path : List Char) : List Char :=
  pathJoin imagesFolder (path.drop 7)

/-- The characters a base64 payload may contain: the alphabet plus padding. -/
def base64Chars : List Char := base64Alphabet ++ ['=']

/-- The two-character sequence `![` that opens a Markdown image reference. -/
def bangBr : List Char := ['!', '[']

/-- The predicate `noBang l` says the text `l` nowhere contains the sequence `![`. -/
def noBang (l : List Char) : Prop := ¬ bangBr <:+: l

/-! ### Basic properties of `stripPre` and `replaceAll` -/

theorem stripPre_some {p s r : List Char} : stripPre p s = some r ↔ s = p ++ r := by
  induction p generalizing s r with
  | nil => simp [stripPre]
  | cons a ps ih =>
    cases s with
    | nil => simp [stripPre]
    | cons c cs =>
      by_cases hac : a = c
      · subst hac
        simp [stripPre, ih]
      · simp [stripPre, hac, Ne.symm hac]

theorem stripPre_app (p r : List Char) : stripPre p (p ++ r) = some r :=
  stripPre_some.mpr rfl

theorem stripPre_refl (p : List Char) : stripPre p p = some [] := by
  simpa using stripPre_app p []

theorem replaceAllGo_fuel {pat : List Char} (hp : pat ≠ []) (repl : List Char) :
    ∀ n s, s.length ≤ n → replaceAllGo pat repl n s = replaceAllGo pat repl s.length s := by
  intro n
  induction n using Nat.strong_induction_on with
  | _ n ih =>
    intro s hs
    match n, s with
    | n, [] => cases n <;> rfl
    | 0, c :: cs => simp at hs
    | n + 1, c :: cs =>
      have hlen : cs.length + 1 ≤ n + 1 := by simpa using hs
      show replaceAllGo pat repl (n + 1) (c :: cs) = replaceAllGo pat repl (cs.length + 1) (c :: cs)
      rcases h : stripPre pat (c :: cs) with _ | rest
      · simp only [replaceAllGo, h]
        have h1 : replaceAllGo pat repl n cs = replaceAllGo pat repl cs.length cs :=
          ih n (Nat.lt_succ_self n) cs (by omega)
        rw [h1]
      · have heq : c :: cs = pat ++ rest := stripPre_some.mp h
        have hrl : rest.length ≤ cs.length := by
          have := congrArg List.length heq
          simp at this
          have hpl : 0 < pat.length := List.length_pos.mpr hp
          omega
        simp only [replaceAllGo, h]
        have h1 : replaceAllGo pat repl n rest = replaceAllGo pat repl rest.length rest :=
          ih n (Nat.lt_succ_self n) rest (by omega)
        have h2 : replaceAllGo pat repl cs.length rest = replaceAllGo pat repl rest.length rest := by
          rcases Nat.eq_or_lt_of_le hrl with he | hl
          · rw [he]
          · exact ih cs.length (by omega) rest (by omega)
        rw [h1, h2]

theorem replaceAll_eat {pat : List Char} (hp : pat ≠ []) (repl : List Char)
    {s rest : List Char} (h : stripPre pat s = some rest) :
    replaceAll pat repl s = repl ++ replaceAll pat repl rest := by
  cases s with
  | nil =>
    cases pat with
    | nil => exact absurd rfl hp
    | cons a ps => simp [stripPre] at h
  | cons c cs =>
    have heq : c :: cs = pat ++ rest := stripPre_some.mp h
    have hrl : rest.length ≤ cs.length := by
      have := congrArg List.length heq
      simp at this
      have hpl : 0 < pat.length := List.length_pos.mpr hp
      omega
    show replaceAllGo pat repl (cs.length + 1) (c :: cs) = _
    simp only [replaceAllGo, h]
    rw [replaceAllGo_fuel hp repl cs.length rest hrl]
    rfl

theorem replaceAll_keep {pat repl : List Char} {c : Char} {cs : List Char}
    (h : stripPre pat (c :: cs) = none) :
    replaceAll pat repl (c :: cs) = c :: replaceAll pat repl cs := by
  show replaceAllGo pat repl (cs.length + 1) (c :: cs) = _
  simp only [replaceAllGo, h]
  rfl

theorem replaceAll_no_occ {pat s : List Char} (repl : List Char) (h : ¬ pat <:+: s) :
    replaceAll pat repl s = s := by
  induction s with
  | nil => rfl
  | cons c cs ih =>
    rcases hs : stripPre pat (c :: cs) with _ | rest
    · rw [replaceAll_keep hs]
      have hcs : ¬ pat <:+: cs := fun hc => h (List.infix_cons hc)
      rw [ih hcs]
    · exact absurd (List.IsPrefix.isInfix ⟨rest, (stripPre_some.mp hs).symm⟩) h

/-! ### Base64: alphabet facts and the round-trip law -/

theorem b64Char_mem (n : Nat) : b64Char n ∈ base64Alphabet := by
  unfold b64Char
  rcases Nat.lt_or_ge n base64Alphabet.length with h | h
  · rw [List.getD_eq_getElem base64Alphabet 'A' h]
    exact List.getElem_mem h
  · rw [List.getD_eq_default base64Alphabet 'A' h]
    decide

theorem b64Char_ne_pad (n : Nat) : b64Char n ≠ '=' := by
  intro h
  have hm := b64Char_mem n
  rw [h] at hm
  exact absurd hm (by decide)

theorem b64Index_b64Char : ∀ n : Fin 64, b64Index (b64Char n.val) = n.val := by decide

theorem b64Index_eq {n : Nat} (h : n < 64) : b64Index (b64Char n) = n :=
  b64Index_b64Char ⟨n, h⟩

theorem b64_roundtrip_aux :
    ∀ n (bs : List Byte), bs.length ≤ n → b64decode (b64encode bs) = some bs := by
  intro n
  induction n using Nat.strong_induction_on with
  | _ n ih =>
    intro bs hn
    match bs with
    | [] => rfl
    | [a] =>
      have ha := a.isLt
      simp only [b64encode, b64decode]
      rw [if_pos (by simp)]
      rw [b64Index_eq (show a.val / 4 < 64 by omega),
          b64Index_eq (show a.val % 4 * 16 < 64 by omega)]
      refine congrArg some (congrArg (fun x => [x]) (Fin.ext ?_))
      show (a.val / 4 * 4 + a.val % 4 * 16 / 16) % 256 = a.val
      omega
    | [a, b] =>
      have ha := a.isLt
      have hb := b.isLt
      simp only [b64encode, b64decode]
      rw [if_neg (fun hc => b64Char_ne_pad (b.val % 16 * 4) hc.1), if_pos (by simp)]
      rw [b64Index_eq (show a.val / 4 < 64 by omega),
          b64Index_eq (show a.val % 4 * 16 + b.val / 16 < 64 by omega),
          b64Index_eq (show b.val % 16 * 4 < 64 by omega)]
      refine congrArg some ?_
      refine congrArg₂ (fun x y => [x, y]) (Fin.ext ?_) (Fin.ext ?_)
      · show (a.val / 4 * 4 + (a.val % 4 * 16 + b.val / 16) / 16) % 256 = a.val
        omega
      · show ((a.val % 4 * 16 + b.val / 16) % 16 * 16 + b.val % 16 * 4 / 4) % 256 = b.val
        omega
    | a :: b :: c :: rest =>
      have ha := a.isLt
      have hb := b.isLt
      have hc := c.isLt
      have hrest : b64decode (b64encode rest) = some rest := by
        have hlt : rest.length < n := by
          simp at hn
          omega
        exact ih rest.length hlt rest le_rfl
      simp only [b64encode, b64decode]
      rw [if_neg (fun hx => b64Char_ne_pad (b.val % 16 * 4 + c.val / 64) hx.1),
          if_neg (fun hx => b64Char_ne_pad (c.val % 64) hx.1)]
      rw [hrest]
      simp only [Option.map_some']
      refine congrArg some ?_
      rw [b64Index_eq (show a.val / 4 < 64 by omega),
          b64Index_eq (show a.val % 4 * 16 + b.val / 16 < 64 by omega),
          b64Index_eq (show b.val % 16 * 4 + c.val / 64 < 64 by omega),
          b64Index_eq (show c.val % 64 < 64 by omega)]
      refine congrArg₂ (fun x t => x :: t) (Fin.ext ?_) ?_
      · show (a.val / 4 * 4 + (a.val % 4 * 16 + b.val / 16) / 16) % 256 = a.val
        omega
      refine congrArg₂ (fun x t => x :: t) (Fin.ext ?_) ?_
      · show ((a.val % 4 * 16 + b.val / 16) % 16 * 16 + (b.val % 16 * 4 + c.val / 64) / 4) % 256 = b.val
        omega
      refine congrArg₂ (fun x t => x :: t) (Fin.ext ?_) rfl
      show ((b.val % 16 * 4 + c.val / 64) % 4 * 64 + c.val % 64) % 256 = c.val
      omega

theorem b64_roundtrip (bs : List Byte) : b64decode (b64encode bs) = some bs :=
  b64_roundtrip_aux bs.length bs le_rfl

/-! ### Characterizing the scanner -/

theorem takeW_stop {p : Char → Bool} {l : List Char} {d : Char} (r : List Char)
    (hl : ∀ c ∈ l, p c = true) (hd : p d = false) :
    (l ++ d :: r).takeWhile p = l := by
  induction l with
  | nil => simp [List.takeWhile_cons, hd]
  | cons a l ih =>
    have ha : p a = true := hl a (by simp)
    have ih' := ih (fun c hc => hl c (by simp [hc]))
    simp [List.takeWhile_cons, ha, ih']

theorem dropW_stop {p : Char → Bool} {l : List Char} {d : Char} (r : List Char)
    (hl : ∀ c ∈ l, p c = true) (hd : p d = false) :
    (l ++ d :: r).dropWhile p = d :: r := by
  induction l with
  | nil => simp [List.dropWhile_cons, hd]
  | cons a l ih =>
    have ha : p a = true := hl a (by simp)
    have ih' := ih (fun c hc => hl c (by simp [hc]))
    simp [List.dropWhile_cons, ha, ih']

/-- The well-formedness every capture pair returned by the scanner enjoys:
the alt text contains no `]`, the path contains no `)` and strictly extends
its mandatory `images/` head. -/
def goodCapture (m : List Char × List Char) : Prop :=
  (∀ c ∈ m.1, c ≠ ']') ∧ (∀ c ∈ m.2, c ≠ ')') ∧ imgPre <+: m.2 ∧ m.2 ≠ imgPre

theorem matchAt_sound {s alt path rest : List Char}
    (h : matchAt s = some (alt, path, rest)) :
    s = mkRef alt path ++ rest ∧ goodCapture (alt, path) := by
  match s with
  | [] => simp [matchAt] at h
  | [c1] => simp [matchAt] at h
  | c1 :: c2 :: cs =>
    simp only [matchAt] at h
    by_cases h12 : c1 = '!' ∧ c2 = '['
    case neg => rw [if_neg h12] at h; exact Option.noConfusion h
    rw [if_pos h12] at h
    obtain ⟨rfl, rfl⟩ := h12
    rcases hd : cs.dropWhile (fun c => c != ']') with _ | ⟨d1, _ | ⟨d2, cs2⟩⟩ <;>
      simp only [hd] at h
    · exact Option.noConfusion h
    · exact Option.noConfusion h
    by_cases hdd : d1 = ']' ∧ d2 = '('
    case neg => rw [if_neg hdd] at h; exact Option.noConfusion h
    rw [if_pos hdd] at h
    obtain ⟨rfl, rfl⟩ := hdd
    rcases hsp : stripPre imgPre cs2 with _ | cs3 <;> simp only [hsp] at h
    · exact Option.noConfusion h
    rcases he : cs3.dropWhile (fun c => c != ')') with _ | ⟨e1, rest'⟩ <;>
      simp only [he] at h
    · exact Option.noConfusion h
    by_cases hf : e1 = ')' ∧ cs3.takeWhile (fun c => c != ')') ≠ []
    case neg => rw [if_neg hf] at h; exact Option.noConfusion h
    rw [if_pos hf] at h
    obtain ⟨he1, hne⟩ := hf
    subst he1
    simp only [Option.some.injEq, Prod.mk.injEq] at h
    obtain ⟨halt, hpath, hrest⟩ := h
    have hcs : cs = cs.takeWhile (fun c => c != ']') ++ ']' :: '(' :: cs2 := by
      conv_lhs => rw [← List.takeWhile_append_dropWhile (p := fun c => c != ']') (l := cs)]
      rw [hd]
    have hcs2 : cs2 = imgPre ++ cs3 := stripPre_some.mp hsp
    have hcs3 : cs3 = cs3.takeWhile (fun c => c != ')') ++ ')' :: rest' := by
      conv_lhs => rw [← List.takeWhile_append_dropWhile (p := fun c => c != ')') (l := cs3)]
      rw [he]
    constructor
    · rw [← halt, ← hpath, ← hrest, mkRef]
      conv_lhs => rw [hcs, hcs2, hcs3]
      simp
    · refine ⟨?_, ?_, ?_, ?_⟩
      · intro c hc
        rw [← halt] at hc
        simpa using List.mem_takeWhile_imp hc
      · intro c hc
        rw [← hpath] at hc
        rcases List.mem_append.mp hc with hc | hc
        · exact (show ∀ x ∈ imgPre, x ≠ ')' by decide) c hc
        · simpa using List.mem_takeWhile_imp hc
      · rw [← hpath]
        exact ⟨cs3.takeWhile (fun c => c != ')'), rfl⟩
      · rw [← hpath]
        intro hE
        exact hne (by simpa using hE)

theorem matchAt_rest_length {s alt path rest : List Char}
    (h : matchAt s = some (alt, path, rest)) : rest.length < s.length := by
  have h1 := (matchAt_sound h).1
  have h2 := congrArg List.length h1
  simp [mkRef] at h2
  omega

theorem findMatchesGo_fuel :
    ∀ n s, s.length ≤ n → findMatchesGo n s = findMatches s := by
  intro n
  induction n using Nat.strong_induction_on with
  | _ n ih =>
    intro s hs
    match n, s with
    | n, [] => cases n <;> rfl
    | 0, c :: cs => simp at hs
    | n + 1, c :: cs =>
      have hs' : cs.length + 1 ≤ n + 1 := by simpa using hs
      show findMatchesGo (n + 1) (c :: cs) = findMatchesGo (cs.length + 1) (c :: cs)
      rcases h : matchAt (c :: cs) with _ | ⟨alt, path, rest⟩
      · simp only [findMatchesGo, h]
        have h1 : findMatchesGo n cs = findMatches cs := ih n (Nat.lt_succ_self n) cs (by omega)
        rw [h1]
        rfl
      · have hrl : rest.length < cs.length + 1 := by simpa using matchAt_rest_length h
        simp only [findMatchesGo, h]
        have h1 : findMatchesGo n rest = findMatches rest :=
          ih n (Nat.lt_succ_self n) rest (by omega)
        have h2 : findMatchesGo cs.length rest = findMatches rest := by
          rcases Nat.eq_or_lt_of_le (show rest.length ≤ cs.length by omega) with he | hl
          · rw [← he]
            rfl
          · exact ih cs.length (by omega) rest (by omega)
        rw [h1, h2]

theorem findMatches_cons_pos {c : Char} {cs alt path rest : List Char}
    (h : matchAt (c :: cs) = some (alt, path, rest)) :
    findMatches (c :: cs) = (alt, path) :: findMatches rest := by
  show findMatchesGo (cs.length + 1) (c :: cs) = _
  simp only [findMatchesGo, h]
  rw [findMatchesGo_fuel cs.length rest
    (by have := matchAt_rest_length h; simp at this; omega)]

theorem findMatches_cons_neg {c : Char} {cs : List Char}
    (h : matchAt (c :: cs) = none) :
    findMatches (c :: cs) = findMatches cs := by
  show findMatchesGo (cs.length + 1) (c :: cs) = _
  simp only [findMatchesGo, h]
  rfl

theorem findMatchesGo_sound :
    ∀ n s, ∀ m ∈ findMatchesGo n s, goodCapture m := by
  intro n
  induction n with
  | zero =>
    intro s m hm
    simp [findMatchesGo] at hm
  | succ n ih =>
    intro s
    match s with
    | [] =>
      intro m hm
      simp [findMatchesGo] at hm
    | c :: cs =>
      intro m hm
      rcases h : matchAt (c :: cs) with _ | ⟨alt, path, rest⟩ <;>
        simp only [findMatchesGo, h] at hm
      · exact ih cs m hm
      · rcases List.mem_cons.mp hm with hm | hm
        · exact hm ▸ (matchAt_sound h).2
        · exact ih rest m hm

theorem findMatches_sound {s : List Char} {m : List Char × List Char}
    (hm : m ∈ findMatches s) : goodCapture m :=
  findMatchesGo_sound s.length s m hm

/-! ### The substitution loop -/

theorem processStep_content (fs : FS) (g : List Char)
    (st : List Char × List (List Char)) (m : List Char × List Char) :
    (processStep fs g st m).1 = pStep fs g st.1 m := by
  rcases h : fs (resolveImagePath g m.2) with _ | b <;> simp [processStep, pStep, h]

theorem foldl_content (fs : FS) (g : List Char) :
    ∀ (ms : List (List Char × List Char)) (st : List Char × List (List Char)),
      (ms.foldl (processStep fs g) st).1 = ms.foldl (pStep fs g) st.1 := by
  intro ms
  induction ms with
  | nil => intro st; rfl
  | cons m ms ih =>
    intro st
    rw [List.foldl_cons, List.foldl_cons, ih, processStep_content]

theorem process_markdown_content (fs : FS) (md g : List Char) :
    (process_markdown fs md g).1 = (findMatches md).foldl (pStep fs g) md :=
  foldl_content fs g (findMatches md) (md, [])

theorem foldl_log_extend (fs : FS) (g : List Char) :
    ∀ (ms : List (List Char × List Char)) (st : List Char × List (List Char)),
      ∃ t, (ms.foldl (processStep fs g) st).2 = st.2 ++ t := by
  intro ms
  induction ms with
  | nil => exact fun st => ⟨[], by simp⟩
  | cons m ms ih =>
    intro st
    obtain ⟨t, ht⟩ := ih (processStep fs g st m)
    rcases h : fs (resolveImagePath g m.2) with _ | b
    · refine ⟨[notFoundMsg ++ resolveImagePath g m.2] ++ t, ?_⟩
      rw [List.foldl_cons, ht]
      simp [processStep, h]
    · refine ⟨t, ?_⟩
      rw [List.foldl_cons, ht]
      simp [processStep, h]

theorem foldl_pStep_all_missing (fs : FS) (g : List Char) :
    ∀ (ms : List (List Char × List Char)) (c : List Char),
      (∀ m ∈ ms, fs (resolveImagePath g m.2) = none) →
      ms.foldl (pStep fs g) c = c := by
  intro ms
  induction ms with
  | nil => intro c _; rfl
  | cons m ms ih =>
    intro c hall
    rw [List.foldl_cons]
    have h1 : pStep fs g c m = c := by simp [pStep, hall m (by simp)]
    rw [h1]
    exact ih c (fun x hx => hall x (by simp [hx]))

/-! ### Claims on the loop that hold directly -/

/-- C6: a document in which the scan finds no image reference is passed
through unchanged — the written output text is the input text (and no
diagnostic is printed). -/
theorem transform_no_matches_id (fs : FS) (md g : List Char)
    (h : findMatches md = []) : process_markdown fs md g = (md, []) := by
  unfold process_markdown
  rw [h]
  rfl

/-- Witness for `transform_no_matches_id`. -/
theorem transform_no_matches_id_witness :
    process_markdown (fun _ => none) (("hello world, no images here").toList)
      (("images/").toList) = ((("hello world, no images here").toList), []) :=
  transform_no_matches_id _ _ _ (by decide)

/-- C7: when the resolved file of a match exists, the substituted reference
always carries the fixed data-URI head `data:image/png;base64,`, for every
byte content whatsoever — the media type never depends on the file's format. -/
theorem step_declares_png (fs : FS) (g : List Char)
    (st : List Char × List (List Char)) (m : List Char × List Char)
    (b : List Byte) (h : fs (resolveImagePath g m.2) = some b) :
    processStep fs g st m =
      (replaceAll (mkRef m.1 m.2) (mkRef m.1 (dataUri b)) st.1, st.2) ∧
    dataUri b = ("data:image/png;base64,").toList ++ b64encode b := by
  exact ⟨by simp [processStep, h], rfl⟩

/-- Witness for `step_declares_png`: a JPEG-looking byte string still gets the
`image/png` media type. -/
theorem step_declares_png_witness :
    processStep (fun p => if p = ("images/a.jpg").toList then some [255, 216] else none)
      (("images/").toList) ((("![x](images/a.jpg)").toList), []) ((("x").toList), ("images/a.jpg").toList) =
      (replaceAll (mkRef (("x").toList) (("images/a.jpg").toList))
        (mkRef (("x").toList) (dataUri [255, 216])) (("![x](images/a.jpg)").toList), []) ∧
    dataUri [255, 216] = ("data:image/png;base64,").toList ++ b64encode [255, 216] :=
  step_declares_png _ _ _ _ _ (by decide)

theorem matchAt_mkRef {alt p : List Char} (rest : List Char)
    (halt : ∀ c ∈ alt, c ≠ ']') (hp : p ≠ []) (hpc : ∀ c ∈ p, c ≠ ')') :
    matchAt (mkRef alt (imgPre ++ p) ++ rest) = some (alt, imgPre ++ p, rest) := by
  have hshape : mkRef alt (imgPre ++ p) ++ rest
      = '!' :: '[' :: (alt ++ ']' :: '(' :: (imgPre ++ (p ++ ')' :: rest))) := by
    simp [mkRef]
  rw [hshape]
  have halt' : ∀ c ∈ alt, (fun c => c != ']') c = true := fun c hc => by
    simpa using halt c hc
  have hpc' : ∀ c ∈ p, (fun c => c != ')') c = true := fun c hc => by
    simpa using hpc c hc
  have hdrop1 : (alt ++ ']' :: '(' :: (imgPre ++ (p ++ ')' :: rest))).dropWhile
      (fun c => c != ']') = ']' :: '(' :: (imgPre ++ (p ++ ')' :: rest)) :=
    dropW_stop _ halt' (by decide)
  have htake1 : (alt ++ ']' :: '(' :: (imgPre ++ (p ++ ')' :: rest))).takeWhile
      (fun c => c != ']') = alt :=
    takeW_stop _ halt' (by decide)
  have hdrop2 : (p ++ ')' :: rest).dropWhile (fun c => c != ')') = ')' :: rest :=
    dropW_stop _ hpc' (by decide)
  have htake2 : (p ++ ')' :: rest).takeWhile (fun c => c != ')') = p :=
    takeW_stop _ hpc' (by decide)
  simp [matchAt, hdrop1, htake1, stripPre_app, hdrop2, htake2, hp]

/-- C9: a reference with empty alt text is matched by the scanner (the alt
capture may be empty) and processed like any other: if the file exists, the
whole document `![](images/p)` becomes `![](<data URI>)`. -/
theorem empty_alt_processed (fs : FS) (g p : List Char) (b : List Byte)
    (hp : p ≠ []) (hpc : ∀ c ∈ p, c ≠ ')')
    (hb : fs (resolveImagePath g (imgPre ++ p)) = some b) :
    findMatches (mkRef [] (imgPre ++ p)) = [([], imgPre ++ p)] ∧
    (process_markdown fs (mkRef [] (imgPre ++ p)) g).1 = mkRef [] (dataUri b) := by
  have hmA : matchAt (mkRef [] (imgPre ++ p) ++ []) = some ([], imgPre ++ p, []) :=
    matchAt_mkRef [] (by simp) hp hpc
  rw [List.append_nil] at hmA
  have hmA' : matchAt ('!' :: '[' :: ([] ++ ']' :: '(' :: ((imgPre ++ p) ++ [')'])))
      = some ([], imgPre ++ p, []) := hmA
  have hm : findMatches (mkRef [] (imgPre ++ p)) = [([], imgPre ++ p)] := by
    have hfm := findMatches_cons_pos hmA'
    simpa [mkRef] using hfm
  refine ⟨hm, ?_⟩
  rw [process_markdown_content, hm]
  show pStep fs g (mkRef [] (imgPre ++ p)) ([], imgPre ++ p) = _
  have heat := @replaceAll_eat (mkRef [] (imgPre ++ p)) (by simp [mkRef])
    (mkRef [] (dataUri b)) (mkRef [] (imgPre ++ p)) []
    (stripPre_refl (mkRef [] (imgPre ++ p)))
  simp only [pStep, hb]
  rw [heat]
  simp [replaceAll, replaceAllGo]

/-- Witness for `empty_alt_processed`. -/
theorem empty_alt_processed_witness :
    findMatches (mkRef [] (imgPre ++ ("x.png").toList)) = [([], imgPre ++ ("x.png").toList)] ∧
    (process_markdown (fun q => if q = ("images/x.png").toList then some [9] else none)
      (mkRef [] (imgPre ++ ("x.png").toList)) (("images/").toList)).1 =
      mkRef [] (dataUri [9]) :=
  empty_alt_processed _ _ _ _ (by decide) (by decide) (by decide)

/-- C4: a match whose resolved file is missing contributes nothing to the
output text — the final text is the fold of the remaining matches only — and
its diagnostic, naming the resolved path, appears among the printed messages;
in particular processing continues over the other matches and the run is not
aborted. -/
theorem missing_file_skips (fs : FS) (g md : List Char)
    (pre post : List (List Char × List Char)) (m : List Char × List Char)
    (hm : findMatches md = pre ++ m :: post)
    (hmiss : fs (resolveImagePath g m.2) = none) :
    (process_markdown fs md g).1 = (pre ++ post).foldl (pStep fs g) md ∧
    notFoundMsg ++ resolveImagePath g m.2 ∈ (process_markdown fs md g).2 := by
  constructor
  · rw [process_markdown_content, hm]
    rw [List.foldl_append, List.foldl_append, List.foldl_cons]
    have h1 : pStep fs g (pre.foldl (pStep fs g) md) m = pre.foldl (pStep fs g) md := by
      simp [pStep, hmiss]
    rw [h1]
  · unfold process_markdown
    rw [hm, List.foldl_append, List.foldl_cons]
    have hstep : processStep fs g (pre.foldl (processStep fs g) (md, [])) m
        = ((pre.foldl (processStep fs g) (md, [])).1,
           (pre.foldl (processStep fs g) (md, [])).2 ++
             [notFoundMsg ++ resolveImagePath g m.2]) := by
      simp [processStep, hmiss]
    rw [hstep]
    obtain ⟨t, ht⟩ := foldl_log_extend fs g post
      ((pre.foldl (processStep fs g) (md, [])).1,
       (pre.foldl (processStep fs g) (md, [])).2 ++ [notFoundMsg ++ resolveImagePath g m.2])
    rw [ht]
    simp

/-- Witness for `missing_file_skips`. -/
theorem missing_file_skips_witness :
    (process_markdown (fun _ => none) (("see ![a](images/gone.png) end").toList)
      (("images/").toList)).1 =
      (([] : List (List Char × List Char)) ++ []).foldl
        (pStep (fun _ => none) (("images/").toList)) (("see ![a](images/gone.png) end").toList) ∧
    notFoundMsg ++ resolveImagePath (("images/").toList) (("images/gone.png").toList) ∈
      (process_markdown (fun _ => none) (("see ![a](images/gone.png) end").toList)
        (("images/").toList)).2 :=
  missing_file_skips _ _ _ [] [] ((("a").toList), ("images/gone.png").toList)
    (by decide) (by decide)

/-! ### Path resolution: every `images/` occurrence is removed (C1) -/

/-- C1 counterexample: on the captured path `images/images/a.png` the code
resolves to `images/a.png` (both occurrences of `images/` removed), not to
`images/images/a.png` as stripping only the leading prefix would give. -/
theorem strip_leading_only_cex :
    resolveImagePath (("images/").toList) (("images/images/a.png").toList) ≠
      resolveImagePathSpec (("images/").toList) (("images/images/a.png").toList) := by
  decide

/-- C1 amended: the resolution removes every (left-to-right, non-overlapping)
occurrence of `images/` from the captured path and joins the remainder onto
the images directory; when the path contains `images/` only as its leading
prefix — the common case — this coincides with stripping the prefix. -/
theorem resolve_removes_every_occurrence (g q : List Char) (hq : ¬ imgPre <:+: q) :
    resolveImagePath g (imgPre ++ q) = pathJoin g q := by
  unfold resolveImagePath
  rw [replaceAll_eat (by decide) [] (stripPre_app imgPre q), replaceAll_no_occ [] hq]
  rfl

/-- Witness for `resolve_removes_every_occurrence`. -/
theorem resolve_removes_every_occurrence_witness :
    resolveImagePath (("images/").toList) (imgPre ++ ("a.png").toList) =
      pathJoin (("images/").toList) (("a.png").toList) :=
  resolve_removes_every_occurrence _ _ (by decide)

/-! ### Second application (C5) and processing order (C8) -/

/-- C5 amended: re-running the transform on the converted output leaves it
unchanged whenever every reference matched in that output resolves to a
missing file.  (Without that proviso the law fails: a substitution can
manufacture a fresh `images/`-prefixed match out of surrounding text, see
`second_app_changes_cex`.) -/
theorem second_app_noop (fs : FS) (g md : List Char)
    (h : ∀ m ∈ findMatches ((process_markdown fs md g).1),
      fs (resolveImagePath g m.2) = none) :
    (process_markdown fs ((process_markdown fs md g).1) g).1 =
      (process_markdown fs md g).1 := by
  rw [process_markdown_content fs ((process_markdown fs md g).1) g]
  exact foldl_pStep_all_missing fs g _ _ h

/-- Witness for `second_app_noop`. -/
theorem second_app_noop_witness :
    (process_markdown (fun _ => none)
      ((process_markdown (fun _ => none) (("a ![x](images/q.png) b").toList)
        (("images/").toList)).1) (("images/").toList)).1 =
    (process_markdown (fun _ => none) (("a ![x](images/q.png) b").toList)
      (("images/").toList)).1 :=
  second_app_noop _ _ _ (fun _ _ => rfl)

theorem countP_zero_missing (fs : FS) (g : List Char)
    {l : List (List Char × List Char)}
    (h : l.countP (fun m => (fs (resolveImagePath g m.2)).isSome) = 0) :
    ∀ m ∈ l, fs (resolveImagePath g m.2) = none := by
  intro m hm
  have hx := List.countP_eq_zero.mp h m hm
  rcases hfs : fs (resolveImagePath g m.2) with _ | b
  · rfl
  · rw [hfs] at hx
    simp at hx

theorem countP_one_split {α : Type} (p : α → Bool) :
    ∀ l : List α, l.countP p = 1 →
      ∃ u e v, l = u ++ e :: v ∧ p e = true ∧ u.countP p = 0 ∧ v.countP p = 0 := by
  intro l
  induction l with
  | nil => intro h; simp at h
  | cons a l ih =>
    intro h
    rw [List.countP_cons] at h
    by_cases hpa : p a = true
    · have hl : l.countP p = 0 := by
        rw [hpa] at h
        simp at h
        exact List.countP_eq_zero.mpr (fun a ha => by simp [h a ha])
      exact ⟨[], a, l, rfl, hpa, by simp, hl⟩
    · have hpa' : p a = false := by simpa using hpa
      rw [hpa'] at h
      simp at h
      obtain ⟨u, e, v, h1, h2, h3, h4⟩ := ih h
      refine ⟨a :: u, e, v, by simp [h1], h2, ?_, h4⟩
      rw [List.countP_cons, hpa']
      simpa using h3

/-- C8 amended: the substitutions are not independent in general — processing
the matches in a different order can change the output (see
`perm_order_matters_cex`) — but when at most one matched reference resolves
to an existing file, every other loop step leaves the text unchanged and any
permutation of the match list produces the same output text. -/
theorem perm_processing_le_one (fs : FS) (g md : List Char)
    (ms : List (List Char × List Char)) (hperm : ms.Perm (findMatches md))
    (hcount : (findMatches md).countP
      (fun m => (fs (resolveImagePath g m.2)).isSome) ≤ 1) :
    (ms.foldl (processStep fs g) (md, [])).1 = (process_markdown fs md g).1 := by
  rw [foldl_content, process_markdown_content]
  rcases Nat.lt_or_ge ((findMatches md).countP
      (fun m => (fs (resolveImagePath g m.2)).isSome)) 1 with hc | hc
  · have h0 : (findMatches md).countP
        (fun m => (fs (resolveImagePath g m.2)).isSome) = 0 := by omega
    have hms0 : ms.countP (fun m => (fs (resolveImagePath g m.2)).isSome) = 0 := by
      rw [hperm.countP_eq]
      exact h0
    rw [foldl_pStep_all_missing fs g _ _ (countP_zero_missing fs g hms0),
        foldl_pStep_all_missing fs g _ _ (countP_zero_missing fs g h0)]
  · have h1 : (findMatches md).countP
        (fun m => (fs (resolveImagePath g m.2)).isSome) = 1 := by omega
    have hms1 : ms.countP (fun m => (fs (resolveImagePath g m.2)).isSome) = 1 := by
      rw [hperm.countP_eq]
      exact h1
    obtain ⟨u, e, v, hsplit, hpe, hu, hv⟩ := countP_one_split _ _ h1
    obtain ⟨u', e', v', hsplit', hpe', hu', hv'⟩ := countP_one_split _ _ hms1
    have hfil : (findMatches md).filter
        (fun m => (fs (resolveImagePath g m.2)).isSome) = [e] := by
      rw [hsplit, List.filter_append, List.filter_cons]
      rw [List.filter_eq_nil_iff.mpr (fun a ha => by
        simpa using List.countP_eq_zero.mp hu a ha)]
      rw [List.filter_eq_nil_iff.mpr (fun a ha => by
        simpa using List.countP_eq_zero.mp hv a ha)]
      simp [hpe]
    have hfil' : ms.filter (fun m => (fs (resolveImagePath g m.2)).isSome) = [e'] := by
      rw [hsplit', List.filter_append, List.filter_cons]
      rw [List.filter_eq_nil_iff.mpr (fun a ha => by
        simpa using List.countP_eq_zero.mp hu' a ha)]
      rw [List.filter_eq_nil_iff.mpr (fun a ha => by
        simpa using List.countP_eq_zero.mp hv' a ha)]
      simp [hpe']
    have hee : e' = e := by
      have hx := hperm.filter (fun m => (fs (resolveImagePath g m.2)).isSome)
      rw [hfil, hfil'] at hx
      exact (List.singleton_perm_singleton.mp hx)
    have key : ∀ (u0 v0 : List (List Char × List Char)),
        u0.countP (fun m => (fs (resolveImagePath g m.2)).isSome) = 0 →
        v0.countP (fun m => (fs (resolveImagePath g m.2)).isSome) = 0 →
        (u0 ++ e :: v0).foldl (pStep fs g) md = pStep fs g md e := by
      intro u0 v0 hu0 hv0
      rw [List.foldl_append, List.foldl_cons,
          foldl_pStep_all_missing fs g _ _ (countP_zero_missing fs g hu0),
          foldl_pStep_all_missing fs g _ _ (countP_zero_missing fs g hv0)]
    rw [hsplit, hsplit', hee, key u v hu hv, key u' v' hu' hv']

/-- Witness for `perm_processing_le_one`. -/
theorem perm_processing_le_one_witness :
    (([((("a").toList), ("images/x").toList)]).foldl
      (processStep (fun p => if p = ("images/x").toList then some [3] else none)
        (("images/").toList)) ((("![a](images/x)").toList), [])).1 =
    (process_markdown (fun p => if p = ("images/x").toList then some [3] else none)
      (("![a](images/x)").toList) (("images/").toList)).1 :=
  perm_processing_le_one _ _ _ _ (by decide) (by decide)

/-! ### The encode round-trip (C2) -/

/-- C2: for any byte content of an existing file, the payload produced by
`convert_image_to_base64` is the base64 of exactly those bytes, and decoding
it recovers them — the encoding is a lossless round-trip; the same payload is
the one embedded in the produced data URI (`dataUri bytes = dataUriHead ++
b64encode bytes`). -/
theorem encode_decode_roundtrip (fs : FS) (p : List Char) (bs : List Byte)
    (h : fs p = some bs) :
    convert_image_to_base64 fs p = some (b64encode bs) ∧
    b64decode (b64encode bs) = some bs ∧
    dataUri bs = dataUriHead ++ b64encode bs := by
  exact ⟨by simp [convert_image_to_base64, h], b64_roundtrip bs, rfl⟩

/-- Witness for `encode_decode_roundtrip`. -/
theorem encode_decode_roundtrip_witness :
    convert_image_to_base64
      (fun q => if q = ("images/c.png").toList then some [0, 1, 2, 3] else none)
      (("images/c.png").toList) = some (b64encode [0, 1, 2, 3]) ∧
    b64decode (b64encode [0, 1, 2, 3]) = some [0, 1, 2, 3] ∧
    dataUri [0, 1, 2, 3] = dataUriHead ++ b64encode [0, 1, 2, 3] :=
  encode_decode_roundtrip _ _ _ (by decide)

/-! ### Concrete runs refuting the overlap-sensitive claims -/

set_option maxRecDepth 10000

/-- Document for the C3 counterexample: the path capture of the first
reference contains a full data-URI reference as a substring, and the third
reference overlaps the second. -/
def cexDoc3 : List Char :=
  ("![A](images/t![B](data:image/png;base64,AA==) ![B](images/y) ![A](images/t![B](images/y)").toList

/-- Filesystem for the C3 counterexample. -/
def cexFS3 : FS := fun p =>
  if p = ("images/y").toList then some [0]
  else if p = ("images/t![B](data:image/png;base64,AA==").toList then some [5]
  else none

/-- C3 counterexample: the first matched reference's file exists and its
occurrence is replaced, but the substitution for the later match `![B](images/y)`
re-creates the first reference's exact matched substring in the output, so the
invariant "the output contains no occurrence of the original matched
substring" fails. -/
theorem orig_ref_reappears_cex :
    ((("A").toList, ("images/t![B](data:image/png;base64,AA==").toList) ∈ findMatches cexDoc3) ∧
    (cexFS3 (resolveImagePath (("images/").toList)
      (("images/t![B](data:image/png;base64,AA==").toList))).isSome = true ∧
    mkRef (("A").toList) (("images/t![B](data:image/png;base64,AA==").toList) <:+:
      (process_markdown cexFS3 cexDoc3 (("images/").toList)).1 := by decide

/-- Document for the C5 counterexample. -/
def cexDoc5 : List Char := ("![b](images/y) ![a](images/![b](images/y)").toList

/-- Filesystem for the C5 counterexample: the file named by the data-URI-bearing
path that the first run manufactures does exist. -/
def cexFS5 : FS := fun p =>
  if p = ("images/y").toList then some [0]
  else if p = ("images/![b](data:image/png;base64,AA==").toList then some [1]
  else none

/-- C5 counterexample: running the transform a second time on the converted
output changes it again — the first run's substitution created a fresh
`images/`-prefixed match whose resolved file exists. -/
theorem second_app_changes_cex :
    (process_markdown cexFS5 ((process_markdown cexFS5 cexDoc5 (("images/").toList)).1)
      (("images/").toList)).1 ≠
    (process_markdown cexFS5 cexDoc5 (("images/").toList)).1 := by decide

/-- Document for the C8 counterexample: the second match's text contains the
first match's text as a (overlapping) substring. -/
def cexDoc8 : List Char := ("![b](images/y) ![a](images/![b](images/y)").toList

/-- Filesystem for the C8 counterexample: both matches resolve to existing
files. -/
def cexFS8 : FS := fun p =>
  if p = ("images/y").toList then some [0]
  else if p = ("images/![b](y").toList then some [1]
  else none

/-- C8 counterexample: processing the two matches in the reversed order gives
a different output text than document order — the substitutions are not
independent, so the processing order is semantically significant. -/
theorem perm_order_matters_cex :
    (([((("a").toList), ("images/![b](images/y").toList),
       ((("b").toList), ("images/y").toList)] :
        List (List Char × List Char)).Perm (findMatches cexDoc8)) ∧
    (([((("a").toList), ("images/![b](images/y").toList),
       ((("b").toList), ("images/y").toList)] :
        List (List Char × List Char)).foldl
          (processStep cexFS8 (("images/").toList)) (cexDoc8, [])).1 ≠
      (process_markdown cexFS8 cexDoc8 (("images/").toList)).1 := by decide

/-- Document for the C10 counterexample. -/
def cexDoc10 : List Char := ("![b](images/y) ![a](images/![b](images/y)").toList

/-- Filesystem for the C10 counterexample: only `images/y` exists. -/
def cexFS10 : FS := fun p =>
  if p = ("images/y").toList then some [0] else none

/-- C10 counterexample: a substitution can create a new match of the scan
pattern — the output of the run contains a match of the regex that the input
did not contain. -/
theorem substitution_creates_match_cex :
    ((("a").toList, ("images/![b](data:image/png;base64,AA==").toList) ∈
      findMatches ((process_markdown cexFS10 cexDoc10 (("images/").toList)).1)) ∧
    ¬ ((("a").toList, ("images/![b](data:image/png;base64,AA==").toList) ∈
      findMatches cexDoc10) := by decide

/-! ### Occurrence bookkeeping for `replaceAll`

The machinery below pins down where an occurrence of a pattern `P` can sit in
the output of `replaceAll pat repl s`: it is either an occurrence that was
already in `s`, or it overlaps one of the inserted copies of `repl`.  When the
shapes of `P` and `repl` exclude every overlap, `replaceAll` can neither keep
nor create occurrences of `P`. -/

theorem pre_append_cases {x a b : List Char} (h : x <+: a ++ b) :
    x <+: a ∨ ∃ y, x = a ++ y ∧ y <+: b := by
  induction a generalizing x with
  | nil =>
    right
    exact ⟨x, by simp, by simpa using h⟩
  | cons c a' ih =>
    cases x with
    | nil => exact Or.inl List.nil_prefix
    | cons d x' =>
      rw [List.cons_append] at h
      obtain ⟨rfl, h'⟩ := List.cons_prefix_cons.mp h
      rcases ih h' with h1 | ⟨y, hy1, hy2⟩
      · exact Or.inl (List.cons_prefix_cons.mpr ⟨rfl, h1⟩)
      · exact Or.inr ⟨y, by simp [hy1], hy2⟩

theorem inf_append_cases {P a b : List Char} (h : P <:+: a ++ b) :
    P <:+: a ∨ P <:+: b ∨
      ∃ x y, P = x ++ y ∧ x ≠ [] ∧ y ≠ [] ∧ x <:+ a ∧ y <+: b := by
  induction a with
  | nil => exact Or.inr (Or.inl (by simpa using h))
  | cons c a' ih =>
    rw [List.cons_append] at h
    rcases List.infix_cons_iff.mp h with hpre | hinf
    · cases P with
      | nil => exact Or.inl (List.nil_infix)
      | cons d P' =>
        obtain ⟨rfl, h'⟩ := List.cons_prefix_cons.mp hpre
        rcases pre_append_cases h' with h1 | ⟨y, hy1, hy2⟩
        · exact Or.inl (List.IsPrefix.isInfix (List.cons_prefix_cons.mpr ⟨rfl, h1⟩))
        · rcases Decidable.em (y = []) with rfl | hyne
          · refine Or.inl ?_
            have : d :: P' <+: d :: a' := by
              rw [hy1, List.append_nil]
            exact this.isInfix
          · refine Or.inr (Or.inr ⟨d :: a', y, ?_, by simp, hyne, List.suffix_refl _, hy2⟩)
            rw [hy1]
            simp
    · rcases ih hinf with h1 | h1 | ⟨x, y, h1, h2, h3, h4, h5⟩
      · exact Or.inl (List.infix_cons h1)
      · exact Or.inr (Or.inl h1)
      · exact Or.inr (Or.inr ⟨x, y, h1, h2, h3, h4.trans (List.suffix_cons c a'), h5⟩)

theorem stripPre_none_iff {p s : List Char} : stripPre p s = none ↔ ¬ p <+: s := by
  constructor
  · intro h hc
    obtain ⟨t, ht⟩ := hc
    rw [stripPre_some.mpr ht.symm] at h
    exact Option.noConfusion h
  · intro h
    rcases hs : stripPre p s with _ | r
    · rfl
    · exact absurd ⟨r, (stripPre_some.mp hs).symm⟩ h

theorem pre_replaceAll {pat repl : List Char} (hp : pat ≠ []) (hr : repl ≠ []) :
    ∀ (s x : List Char), x <+: replaceAll pat repl s →
      x <+: s ∨ ∃ s₀ ρ, x = s₀ ++ ρ ∧ s₀ <+: s ∧ ρ ≠ [] ∧ (ρ <+: repl ∨ repl <+: ρ) := by
  intro s
  induction s with
  | nil =>
    intro x hx
    left
    simpa [replaceAll, replaceAllGo] using hx
  | cons c cs ih =>
    intro x hx
    rcases hstep : stripPre pat (c :: cs) with _ | rest
    · rw [replaceAll_keep hstep] at hx
      cases x with
      | nil => exact Or.inl List.nil_prefix
      | cons d x' =>
        obtain ⟨rfl, h'⟩ := List.cons_prefix_cons.mp hx
        rcases ih x' h' with h1 | ⟨s₀, ρ, h1, h2, h3, h4⟩
        · exact Or.inl (List.cons_prefix_cons.mpr ⟨rfl, h1⟩)
        · exact Or.inr ⟨d :: s₀, ρ, by simp [h1], List.cons_prefix_cons.mpr ⟨rfl, h2⟩, h3, h4⟩
    · rw [replaceAll_eat hp repl hstep] at hx
      rcases pre_append_cases hx with h1 | ⟨y, hy1, hy2⟩
      · rcases Decidable.em (x = []) with rfl | hxne
        · exact Or.inl List.nil_prefix
        · exact Or.inr ⟨[], x, by simp, List.nil_prefix, hxne, Or.inl h1⟩
      · refine Or.inr ⟨[], x, by simp, List.nil_prefix, ?_, Or.inr ⟨y, hy1.symm⟩⟩
        rw [hy1]
        simp [hr]

theorem infix_nil_of (P : List Char) (hP : P ≠ []) : ¬ P <:+: ([] : List Char) :=
  fun hc => hP (List.infix_nil.mp hc)

theorem no_new_occ {pat repl P : List Char} (hp : pat ≠ []) (hr : repl ≠ []) (hP : P ≠ [])
    (o1 : ¬ P <:+: repl)
    (o2 : ∀ ρ, ρ ≠ [] → ρ <+: repl → ¬ ρ <:+ P)
    (o3 : ∀ ρ, ρ ≠ [] → ρ <:+ repl → ¬ ρ <+: P)
    (o4 : ¬ repl <:+: P) :
    ∀ n s, s.length ≤ n → ¬ P <:+: s → ¬ P <:+: replaceAll pat repl s := by
  intro n
  induction n using Nat.strong_induction_on with
  | _ n ih =>
    intro s hn hs hc
    match s with
    | [] => exact hs (by simpa [replaceAll, replaceAllGo] using hc)
    | c :: cs =>
      have hlen : cs.length + 1 ≤ n := by simpa using hn
      rcases hstep : stripPre pat (c :: cs) with _ | rest
      · rw [replaceAll_keep hstep] at hc
        rcases List.infix_cons_iff.mp hc with hpre | hinf
        · cases P with
          | nil => exact hP rfl
          | cons d P' =>
            obtain ⟨rfl, h'⟩ := List.cons_prefix_cons.mp hpre
            rcases pre_replaceAll hp hr cs P' h' with h1 | ⟨s₀, ρ, h1, h2, h3, h4⟩
            · exact hs (List.IsPrefix.isInfix (List.cons_prefix_cons.mpr ⟨rfl, h1⟩))
            · rcases h4 with h4 | h4
              · exact o2 ρ h3 h4 ⟨d :: s₀, by simp [h1]⟩
              · exact o4 ((List.IsPrefix.isInfix h4).trans
                  (List.IsSuffix.isInfix ⟨d :: s₀, by simp [h1]⟩))
        · exact ih cs.length (by omega) cs le_rfl
            (fun hx => hs (List.infix_cons hx)) hinf
      · rw [replaceAll_eat hp repl hstep] at hc
        have hrest : c :: cs = pat ++ rest := stripPre_some.mp hstep
        have hrl : rest.length < cs.length + 1 := by
          have := congrArg List.length hrest
          simp at this
          have : 0 < pat.length := List.length_pos.mpr hp
          omega
        rcases inf_append_cases hc with h1 | h1 | ⟨x, y, hxy, hx, hy, hxs, hyp⟩
        · exact o1 h1
        · refine ih rest.length (by omega) rest le_rfl ?_ h1
          intro hPrest
          exact hs (hPrest.trans (List.IsSuffix.isInfix ⟨pat, hrest.symm⟩))
        · exact o3 x hx hxs ⟨y, hxy.symm⟩

theorem self_no_occ {repl P : List Char} (hr : repl ≠ []) (hP : P ≠ [])
    (o1 : ¬ P <:+: repl)
    (o2 : ∀ ρ, ρ ≠ [] → ρ <+: repl → ¬ ρ <:+ P)
    (o3 : ∀ ρ, ρ ≠ [] → ρ <:+ repl → ¬ ρ <+: P)
    (o4 : ¬ repl <:+: P) :
    ∀ n s, s.length ≤ n → ¬ P <:+: replaceAll P repl s := by
  intro n
  induction n using Nat.strong_induction_on with
  | _ n ih =>
    intro s hn hc
    match s with
    | [] => exact infix_nil_of P hP (by simpa [replaceAll, replaceAllGo] using hc)
    | c :: cs =>
      have hlen : cs.length + 1 ≤ n := by simpa using hn
      rcases hstep : stripPre P (c :: cs) with _ | rest
      · rw [replaceAll_keep hstep] at hc
        rcases List.infix_cons_iff.mp hc with hpre | hinf
        · cases P with
          | nil => exact hP rfl
          | cons d P' =>
            obtain ⟨hdc, h'⟩ := List.cons_prefix_cons.mp hpre
            rcases pre_replaceAll hP hr cs P' h' with h1 | ⟨s₀, ρ, h1, h2, h3, h4⟩
            · exact (stripPre_none_iff.mp hstep) (List.cons_prefix_cons.mpr ⟨hdc, h1⟩)
            · rcases h4 with h4 | h4
              · exact o2 ρ h3 h4 ⟨d :: s₀, by simp [h1]⟩
              · exact o4 ((List.IsPrefix.isInfix h4).trans
                  (List.IsSuffix.isInfix ⟨d :: s₀, by simp [h1]⟩))
        · exact ih cs.length (by omega) cs le_rfl hinf
      · rw [replaceAll_eat hP repl hstep] at hc
        have hrest : c :: cs = P ++ rest := stripPre_some.mp hstep
        have hrl : rest.length < cs.length + 1 := by
          have h2 := congrArg List.length hrest
          simp at h2
          have : 0 < P.length := List.length_pos.mpr hP
          omega
        rcases inf_append_cases hc with h1 | h1 | ⟨x, y, hxy, hx, hy, hxs, hyp⟩
        · exact o1 h1
        · exact ih rest.length (by omega) rest le_rfl h1
        · exact o3 x hx hxs ⟨y, hxy.symm⟩

/-! ### Shape analysis of `![alt](path)` references -/

theorem bang_mem {l : List Char} (h : bangBr <:+: l) : '!' ∈ l :=
  h.sublist.subset (by decide)

theorem noBang_of_not_mem {l : List Char} (h : '!' ∉ l) : ¬ bangBr <:+: l :=
  fun hc => h (bang_mem hc)

theorem two_split {u v : List Char} (h : (['!', '['] : List Char) = u ++ v)
    (hu : u ≠ []) (hv : v ≠ []) : u = ['!'] ∧ v = ['['] := by
  rcases u with _ | ⟨a, _ | ⟨b, u'⟩⟩
  · exact absurd rfl hu
  · rw [List.cons_append, List.nil_append] at h
    injection h with h1 h2
    exact ⟨by rw [h1], h2.symm⟩
  · exfalso
    have hlen := congrArg List.length h
    rcases v with _ | ⟨e, v'⟩
    · exact hv rfl
    · simp at hlen

theorem noBang_body {x y : List Char} (hx : ¬ bangBr <:+: x) (hy : ¬ bangBr <:+: y) :
    ¬ bangBr <:+: (x ++ ']' :: '(' :: (y ++ [')'])) := by
  intro h
  rw [show bangBr = ['!', '['] from rfl] at h hx hy
  rcases inf_append_cases h with h1 | h1 | ⟨u, v, huv, hu, hv, hus, hvp⟩
  · exact hx h1
  · rcases List.infix_cons_iff.mp h1 with h2 | h2
    · exact absurd (List.cons_prefix_cons.mp h2).1 (by decide)
    rcases List.infix_cons_iff.mp h2 with h3 | h3
    · exact absurd (List.cons_prefix_cons.mp h3).1 (by decide)
    rcases inf_append_cases h3 with h4 | h4 | ⟨u, v, huv, hu, hv, hus, hvp⟩
    · exact hy h4
    · rcases List.infix_cons_iff.mp h4 with h5 | h5
      · have := (List.cons_prefix_cons.mp h5).2
        simp at this
      · exact absurd (List.infix_nil.mp h5) (by decide)
    · obtain ⟨rfl, rfl⟩ := two_split huv hu hv
      have := (List.cons_prefix_cons.mp hvp).1
      exact absurd this (by decide)
  · obtain ⟨rfl, rfl⟩ := two_split huv hu hv
    have := (List.cons_prefix_cons.mp hvp).1
    exact absurd this (by decide)

theorem noBang_mkRef {x y u v : List Char} (hx : ¬ bangBr <:+: x) (hy : ¬ bangBr <:+: y)
    (h : mkRef x y = u ++ '!' :: '[' :: v) : u = [] := by
  rcases u with _ | ⟨e, u'⟩
  · rfl
  exfalso
  rw [mkRef, List.cons_append] at h
  injection h with h1 h2
  rcases u' with _ | ⟨f, u''⟩
  · rw [List.nil_append] at h2
    injection h2 with h3 _
    exact absurd h3 (by decide)
  · rw [List.cons_append] at h2
    injection h2 with h3 h4
    have hb : bangBr <:+: (x ++ ']' :: '(' :: (y ++ [')'])) :=
      ⟨u'', v, by rw [h4]; simp [bangBr]⟩
    exact noBang_body hx hy hb

theorem mkRef_last (x y : List Char) : (mkRef x y).getLast? = some ')' := by
  have h : mkRef x y = ('!' :: '[' :: (x ++ ']' :: '(' :: y)) ++ [')'] := by simp [mkRef]
  rw [h, List.getLast?_concat]

theorem alt_align_pre {x x' u v : List Char}
    (hx : ∀ c ∈ x, c ≠ ']') (hx' : ∀ c ∈ x', c ≠ ']')
    (h : x ++ ']' :: u <+: x' ++ ']' :: v) : x = x' ∧ u <+: v := by
  induction x generalizing x' with
  | nil =>
    cases x' with
    | nil => exact ⟨rfl, by simpa using h⟩
    | cons c' x'' =>
      exfalso
      simp only [List.nil_append, List.cons_append, List.cons_prefix_cons] at h
      exact hx' c' (by simp) h.1.symm
  | cons c x'' ih =>
    cases x' with
    | nil =>
      exfalso
      simp only [List.nil_append, List.cons_append, List.cons_prefix_cons] at h
      exact hx c (by simp) h.1
    | cons c' x''' =>
      simp only [List.cons_append, List.cons_prefix_cons] at h
      obtain ⟨hcc, h2⟩ := h
      obtain ⟨hxe, hu⟩ := ih (fun a ha => hx a (by simp [ha]))
        (fun a ha => hx' a (by simp [ha])) h2
      exact ⟨by rw [hcc, hxe], hu⟩

theorem mkRef_pre_ne {x y x' y' : List Char}
    (hx : ∀ c ∈ x, c ≠ ']') (hx' : ∀ c ∈ x', c ≠ ']')
    {cy cy' : Char} (hy : y.head? = some cy) (hy' : y'.head? = some cy') (hne : cy ≠ cy') :
    ¬ mkRef x y <+: mkRef x' y' := by
  intro h
  rw [mkRef, mkRef] at h
  obtain ⟨_, h⟩ := List.cons_prefix_cons.mp h
  obtain ⟨_, h⟩ := List.cons_prefix_cons.mp h
  obtain ⟨_, h2⟩ := alt_align_pre hx hx' h
  obtain ⟨_, h3⟩ := List.cons_prefix_cons.mp h2
  rcases y with _ | ⟨a, y₁⟩
  · exact Option.noConfusion hy
  rcases y' with _ | ⟨a', y₁'⟩
  · exact Option.noConfusion hy'
  have ha : a = cy := by simpa using hy
  have ha' : a' = cy' := by simpa using hy'
  simp only [List.cons_append, List.cons_prefix_cons] at h3
  exact hne (by rw [← ha, ← ha', h3.1])

theorem mkRef_no_overlap {x y x' d : List Char}
    (hxK : ∀ c ∈ x, c ≠ ']') (hx'K : ∀ c ∈ x', c ≠ ']')
    (hnx : ¬ bangBr <:+: x) (hny : ¬ bangBr <:+: y)
    (hnx' : ¬ bangBr <:+: x') (hnd : ¬ bangBr <:+: d)
    {cy cd : Char} (hyH : y.head? = some cy) (hdH : d.head? = some cd) (hne : cy ≠ cd) :
    (¬ mkRef x y <:+: mkRef x' d) ∧
    (∀ ρ, ρ ≠ [] → ρ <+: mkRef x' d → ¬ ρ <:+ mkRef x y) ∧
    (∀ ρ, ρ ≠ [] → ρ <:+ mkRef x' d → ¬ ρ <+: mkRef x y) ∧
    (¬ mkRef x' d <:+: mkRef x y) := by
  have L1 : ¬ mkRef x y <+: mkRef x' d := mkRef_pre_ne hxK hx'K hyH hdH hne
  have L1' : ¬ mkRef x' d <+: mkRef x y := mkRef_pre_ne hx'K hxK hdH hyH (Ne.symm hne)
  refine ⟨?_, ?_, ?_, ?_⟩
  · rintro ⟨u, v, huv⟩
    have hshape : mkRef x' d = u ++ '!' :: '[' :: ((x ++ ']' :: '(' :: (y ++ [')'])) ++ v) := by
      rw [← huv]
      simp [mkRef]
    have hu0 := noBang_mkRef hnx' hnd hshape
    subst hu0
    refine L1 ⟨v, ?_⟩
    simpa using huv
  · rintro ρ hρ hpre ⟨w, hw⟩
    rcases ρ with _ | ⟨r1, ρ1⟩
    · exact hρ rfl
    have hr1 : r1 = '!' := by
      rw [mkRef] at hpre
      exact (List.cons_prefix_cons.mp hpre).1
    subst hr1
    rcases ρ1 with _ | ⟨r2, ρ2⟩
    · have hlast : (mkRef x y).getLast? = some '!' := by
        rw [← hw, List.getLast?_concat]
      rw [mkRef_last] at hlast
      exact absurd (Option.some.inj hlast) (by decide)
    have hr2 : r2 = '[' := by
      rw [mkRef] at hpre
      have h2 := (List.cons_prefix_cons.mp hpre).2
      exact (List.cons_prefix_cons.mp h2).1
    subst hr2
    have hu0 := noBang_mkRef hnx hny hw.symm
    subst hu0
    have hρP : '!' :: '[' :: ρ2 = mkRef x y := by simpa using hw
    exact L1 (hρP ▸ hpre)
  · rintro ρ hρ ⟨w, hw⟩ hpre
    rcases ρ with _ | ⟨r1, ρ1⟩
    · exact hρ rfl
    have hr1 : r1 = '!' := by
      rw [mkRef] at hpre
      exact (List.cons_prefix_cons.mp hpre).1
    subst hr1
    rcases ρ1 with _ | ⟨r2, ρ2⟩
    · have hlast : (mkRef x' d).getLast? = some '!' := by
        rw [← hw, List.getLast?_concat]
      rw [mkRef_last] at hlast
      exact absurd (Option.some.inj hlast) (by decide)
    have hr2 : r2 = '[' := by
      rw [mkRef] at hpre
      have h2 := (List.cons_prefix_cons.mp hpre).2
      exact (List.cons_prefix_cons.mp h2).1
    subst hr2
    have hu0 := noBang_mkRef hnx' hnd hw.symm
    subst hu0
    have hρR : '!' :: '[' :: ρ2 = mkRef x' d := by simpa using hw
    exact L1' (hρR ▸ hpre)
  · rintro ⟨u, v, huv⟩
    have hshape : mkRef x y = u ++ '!' :: '[' :: ((x' ++ ']' :: '(' :: (d ++ [')'])) ++ v) := by
      rw [← huv]
      simp [mkRef]
    have hu0 := noBang_mkRef hnx hny hshape
    subst hu0
    refine L1' ⟨v, ?_⟩
    simpa using huv

theorem b64Char_mem_chars (n : Nat) : b64Char n ∈ base64Chars :=
  List.mem_append.mpr (Or.inl (b64Char_mem n))

theorem mem_b64encode_aux :
    ∀ n (b : List Byte), b.length ≤ n → ∀ c ∈ b64encode b, c ∈ base64Chars := by
  intro n
  induction n using Nat.strong_induction_on with
  | _ n ih =>
    intro b hn c hc
    match b with
    | [] => simp [b64encode] at hc
    | [a] =>
      simp only [b64encode, List.mem_cons, List.not_mem_nil, or_false] at hc
      rcases hc with rfl | rfl | rfl | rfl
      · exact b64Char_mem_chars _
      · exact b64Char_mem_chars _
      · decide
      · decide
    | [a, b'] =>
      simp only [b64encode, List.mem_cons, List.not_mem_nil, or_false] at hc
      rcases hc with rfl | rfl | rfl | rfl
      · exact b64Char_mem_chars _
      · exact b64Char_mem_chars _
      · exact b64Char_mem_chars _
      · decide
    | a :: b' :: c' :: rest =>
      simp only [b64encode, List.mem_cons] at hc
      rcases hc with rfl | rfl | rfl | rfl | hc
      · exact b64Char_mem_chars _
      · exact b64Char_mem_chars _
      · exact b64Char_mem_chars _
      · exact b64Char_mem_chars _
      · have hlt : rest.length < n := by
          simp at hn
          omega
        exact ih rest.length hlt rest le_rfl c hc

theorem mem_b64encode {b : List Byte} : ∀ c ∈ b64encode b, c ∈ base64Chars :=
  mem_b64encode_aux b.length b le_rfl

theorem dataUri_no_paren (b : List Byte) : ∀ c ∈ dataUri b, c ≠ ')' := by
  intro c hc he
  rcases List.mem_append.mp hc with hc | hc
  · subst he
    exact absurd hc (by decide)
  · subst he
    exact absurd (mem_b64encode _ hc) (by decide)

theorem dataUri_no_bang (b : List Byte) : '!' ∉ dataUri b := by
  intro hc
  rcases List.mem_append.mp hc with hc | hc
  · exact absurd hc (by decide)
  · exact absurd (mem_b64encode _ hc) (by decide)

theorem dataUri_head_eq (b : List Byte) : (dataUri b).head? = some 'd' := rfl

theorem q_head {q : List Char} (h : imgPre <+: q) : q.head? = some 'i' := by
  obtain ⟨t, ht⟩ := h
  rw [← ht]
  rfl

theorem fold_preserves (fs : FS) (g : List Char) {a q : List Char}
    (haK : ∀ c ∈ a, c ≠ ']') (hqI : imgPre <+: q)
    (hnba : ¬ bangBr <:+: a) (hnbq : ¬ bangBr <:+: q) :
    ∀ (ms : List (List Char × List Char)) (c : List Char),
      (∀ x ∈ ms, goodCapture x ∧ ¬ bangBr <:+: x.1 ∧ ¬ bangBr <:+: x.2) →
      ¬ mkRef a q <:+: c → ¬ mkRef a q <:+: ms.foldl (pStep fs g) c := by
  intro ms
  induction ms with
  | nil =>
    intro c _ hc
    simpa using hc
  | cons m ms ih =>
    intro c hall hc
    rw [List.foldl_cons]
    obtain ⟨⟨hmK, hmP, hmI, hmNe⟩, hmB1, hmB2⟩ := hall m (by simp)
    refine ih _ (fun x hx => hall x (by simp [hx])) ?_
    rcases hfs : fs (resolveImagePath g m.2) with _ | b
    · simpa [pStep, hfs] using hc
    · have hstep : pStep fs g c m = replaceAll (mkRef m.1 m.2) (mkRef m.1 (dataUri b)) c := by
        simp [pStep, hfs]
      rw [hstep]
      obtain ⟨o1, o2, o3, o4⟩ := mkRef_no_overlap haK hmK hnba hnbq hmB1
        (noBang_of_not_mem (dataUri_no_bang b)) (q_head hqI) (dataUri_head_eq b) (by decide)
      exact no_new_occ (by simp [mkRef]) (by simp [mkRef]) (by simp [mkRef])
        o1 o2 o3 o4 c.length c le_rfl hc

/-- C3 amended: for every matched image reference whose resolved file exists,
the output text contains no occurrence of that reference's original matched
substring — provided no captured alt text and no captured path of any match
contains the sequence `![`.  (Without the proviso the invariant fails:
`orig_ref_reappears_cex` exhibits a later substitution re-creating the
replaced text.) -/
theorem process_no_orig_ref (fs : FS) (g md : List Char)
    (hnb : ∀ m ∈ findMatches md, ¬ bangBr <:+: m.1 ∧ ¬ bangBr <:+: m.2) :
    ∀ m ∈ findMatches md, (fs (resolveImagePath g m.2)).isSome = true →
      ¬ mkRef m.1 m.2 <:+: (process_markdown fs md g).1 := by
  intro m hm hsome
  rw [process_markdown_content]
  obtain ⟨pre, post, hsplit⟩ := List.append_of_mem hm
  rw [hsplit, List.foldl_append, List.foldl_cons]
  obtain ⟨hmK, hmP, hmI, hmNe⟩ := findMatches_sound hm
  obtain ⟨hB1, hB2⟩ := hnb m hm
  obtain ⟨b, hb⟩ := Option.isSome_iff_exists.mp hsome
  have hstep : pStep fs g (pre.foldl (pStep fs g) md) m
      = replaceAll (mkRef m.1 m.2) (mkRef m.1 (dataUri b)) (pre.foldl (pStep fs g) md) := by
    simp [pStep, hb]
  rw [hstep]
  obtain ⟨o1, o2, o3, o4⟩ := mkRef_no_overlap hmK hmK hB1 hB2 hB1
    (noBang_of_not_mem (dataUri_no_bang b)) (q_head hmI) (dataUri_head_eq b) (by decide)
  have hself : ¬ mkRef m.1 m.2 <:+:
      replaceAll (mkRef m.1 m.2) (mkRef m.1 (dataUri b)) (pre.foldl (pStep fs g) md) :=
    self_no_occ (by simp [mkRef]) (by simp [mkRef]) o1 o2 o3 o4 _ _ le_rfl
  refine fold_preserves fs g hmK hmI hB1 hB2 post _ ?_ hself
  intro x hx
  have hxmem : x ∈ findMatches md := by
    rw [hsplit]
    exact List.mem_append_right _ (List.mem_cons_of_mem m hx)
  exact ⟨findMatches_sound hxmem, (hnb x hxmem).1, (hnb x hxmem).2⟩

/-- Witness for `process_no_orig_ref`. -/
theorem process_no_orig_ref_witness :
    ¬ mkRef (("a").toList) (("images/x").toList) <:+:
      (process_markdown (fun p => if p = ("images/x").toList then some [3] else none)
        (("![a](images/x) and ![b](images/y)").toList) (("images/").toList)).1 :=
  process_no_orig_ref (fun p => if p = ("images/x").toList then some [3] else none)
    (("images/").toList) (("![a](images/x) and ![b](images/y)").toList)
    (by decide) ((("a").toList), ("images/x").toList) (by decide) (by decide)

/-! ### The replacement text contains no match of its own (C10) -/

theorem matchAt_some_head {t : List Char} {r : List Char × List Char × List Char}
    (h : matchAt t = some r) : ∃ t', t = '!' :: '[' :: t' := by
  rcases r with ⟨alt, path, rest⟩
  have h1 := (matchAt_sound h).1
  exact ⟨(alt ++ ']' :: '(' :: (path ++ [')'])) ++ rest, by rw [h1]; simp [mkRef]⟩

theorem findMatchesGo_none :
    ∀ n s, (∀ t, t <:+ s → matchAt t = none) → findMatchesGo n s = [] := by
  intro n
  induction n with
  | zero =>
    intro s _
    cases s <;> rfl
  | succ n ih =>
    intro s hall
    match s with
    | [] => rfl
    | c :: cs =>
      have h0 : matchAt (c :: cs) = none := hall _ (List.suffix_refl _)
      simp only [findMatchesGo, h0]
      exact ih cs (fun t ht => hall t (ht.trans (List.suffix_cons c cs)))

theorem matchAt_mkRef_dataUri {alt : List Char} (b : List Byte)
    (haK : ∀ c ∈ alt, c ≠ ']') :
    matchAt (mkRef alt (dataUri b)) = none := by
  have hshape : mkRef alt (dataUri b)
      = '!' :: '[' :: (alt ++ ']' :: '(' :: (dataUri b ++ [')'])) := by
    simp [mkRef]
  rw [hshape]
  have halt' : ∀ c ∈ alt, (fun c => c != ']') c = true := fun c hc => by
    simpa using haK c hc
  have hdrop1 : (alt ++ ']' :: '(' :: (dataUri b ++ [')'])).dropWhile (fun c => c != ']')
      = ']' :: '(' :: (dataUri b ++ [')']) := dropW_stop _ halt' (by decide)
  have hsp : stripPre imgPre (dataUri b ++ [')']) = none := by
    rw [stripPre_none_iff]
    rintro ⟨t, ht⟩
    have h1 : (imgPre ++ t).head? = some 'i' := rfl
    have h2 : (dataUri b ++ [')']).head? = some 'd' := rfl
    rw [ht] at h1
    rw [h1] at h2
    exact absurd (Option.some.inj h2) (by decide)
  simp [matchAt, hdrop1, hsp]

theorem suffix_matchAt_none {alt : List Char} (b : List Byte)
    (haK : ∀ c ∈ alt, c ≠ ']') (hnb : ¬ bangBr <:+: alt) :
    ∀ t, t <:+ mkRef alt (dataUri b) → matchAt t = none := by
  intro t ht
  rcases hma : matchAt t with _ | r
  · rfl
  exfalso
  obtain ⟨t', rfl⟩ := matchAt_some_head hma
  obtain ⟨w, hw⟩ := ht
  have hu0 := noBang_mkRef hnb (noBang_of_not_mem (dataUri_no_bang b)) hw.symm
  subst hu0
  have hteq : '!' :: '[' :: t' = mkRef alt (dataUri b) := by simpa using hw
  rw [hteq, matchAt_mkRef_dataUri b haK] at hma
  exact Option.noConfusion hma

/-- C10 amended: the base64 payload consists only of base64 characters
(alphabet plus `=`), the produced data URI contains neither `)` nor `]` — so
the replacement `![alt](<data URI>)` is a well-formed image reference — and
the replacement text itself contains no match of the scan pattern (its URI
does not start with `images/`).  A substitution may still create a match
elsewhere in the document by combining with surrounding text
(`substitution_creates_match_cex`). -/
theorem replacement_no_self_match {alt : List Char} (b : List Byte)
    (haK : ∀ c ∈ alt, c ≠ ']') (hnb : ¬ bangBr <:+: alt) :
    (∀ c ∈ b64encode b, c ∈ base64Chars) ∧
    (∀ c ∈ dataUri b, c ≠ ')' ∧ c ≠ ']') ∧
    findMatches (mkRef alt (dataUri b)) = [] := by
  refine ⟨mem_b64encode, ?_, ?_⟩
  · intro c hc
    refine ⟨dataUri_no_paren b c hc, ?_⟩
    intro he
    subst he
    rcases List.mem_append.mp hc with hc | hc
    · exact absurd hc (by decide)
    · exact absurd (mem_b64encode _ hc) (by decide)
  · exact findMatchesGo_none _ _ (suffix_matchAt_none b haK hnb)

/-- Witness for `replacement_no_self_match`. -/
theorem replacement_no_self_match_witness :
    (∀ c ∈ b64encode [7], c ∈ base64Chars) ∧
    (∀ c ∈ dataUri [7], c ≠ ')' ∧ c ≠ ']') ∧
    findMatches (mkRef (("pic").toList) (dataUri [7])) = [] :=
  replacement_no_self_match [7] (by decide) (by decide)
